import Mathlib

set_option maxRecDepth 100000

/-!
Shallow embedding of the ext2 image browser (`src/main.rs`, struct `Ext2`).

Bytes are modelled as `Nat` (values < 256 in well-formed states), blocks as
`List Nat`, the block table as `List (List Nat)`.  The on-disk struct layouts
(`structs.rs` is not present under `src/`) are modelled from the spec (§3,
little-endian ext2 per the OSDev reference the spec names).

Rust panics (index out of bounds, subtraction overflow in debug builds,
`panic!`, `unwrap`, `expect`, failed `assert!`) are modelled as the
distinguished outcome `RErr.panic msg`; `std::io::Error` result values the
code constructs and returns are the other `RErr` constructors.  A caller
that `match`es on a `Result` catches only the non-panic constructors, while
`RErr.panic` always propagates, mirroring Rust unwinding/abort.
-/

/-- Little-endian 16-bit value from two bytes. -/
def le16At (l : List Nat) (k : Nat) : Nat :=
  l.getD k 0 + 256 * l.getD (k + 1) 0

/-- Little-endian 32-bit value from four bytes. -/
def le32At (l : List Nat) (k : Nat) : Nat :=
  l.getD k 0 + 256 * l.getD (k + 1) 0 + 65536 * l.getD (k + 2) 0 +
    16777216 * l.getD (k + 3) 0

/-- The two little-endian bytes of a 16-bit value (low byte first). -/
def le16B (n : Nat) : List Nat := [n % 256, n / 256 % 256]

/-- The four little-endian bytes of a 32-bit value (low byte first). -/
def le32B (n : Nat) : List Nat :=
  [n % 256, n / 256 % 256, n / 65536 % 256, n / 16777216 % 256]

/-- Outcomes of the Rust code that do not carry a payload: either a
structured `std::io::Error` result value (first two constructors, matching
the strings the source passes to `std::io::Error::new`) or a panic/abort. -/
inductive RErr where
  | notDirectory          -- io::Error "inode is not a directory"
  | notFile               -- io::Error "inode is not a file"
  | panic (msg : String)  -- panic! / unwrap / expect / assert! / index / overflow
deriving DecidableEq

/-- One diagnostic line printed by the code; one constructor per `println!`
format string, carrying the formatted-in payload. -/
inductive Msg where
  | unableToLocate (name : List Nat)        -- "unable to locate {}"
  | notADirectory (name : List Nat)         -- "not a directory: {}"
  | unableToReadDirectory                   -- "unable to read directory"
  | unableToFollowPath                      -- "unable to follow path"
  | unableToReadDirectoryInLs               -- "unable to read directory in ls"
  | cdUnableToFind (path : List Nat)        -- "cd: unable to find directory: {}"
  | unableToReadCwd                         -- "unable to read cwd"
  | unableToReadDirectoryInCd               -- "unable to read directory in cd"
  | listing (names : List (List Nat))       -- the tab-separated name listing
deriving DecidableEq

/-- `Superblock` fields the core reads (modelled from the spec §3; the Rust
struct lives in the missing `structs.rs`). -/
structure Superblock where
  inodes_count : Nat
  blocks_count : Nat
  blocks_per_group : Nat
  inodes_per_group : Nat
  log_block_size : Nat
  magic : Nat
deriving DecidableEq

/-- `BlockGroupDescriptor` fields the core reads (modelled from the spec §3). -/
structure BlockGroupDescriptor where
  block_usage_bitmap_block : Nat
  inode_usage_bitmap_block : Nat
  inode_table_block : Nat
deriving DecidableEq

/-- The decoded on-disk inode record fields the core reads (spec §3). -/
structure Inode where
  type_perm : Nat
  size_low : Nat
  size_high : Nat
  direct_pointer : List Nat   -- 12 entries
  indirect_pointer : Nat
deriving DecidableEq

/-- The `Ext2` filesystem view (struct `Ext2` in the source): superblock,
group descriptors, the block table, block size and the block offset that is
subtracted before indexing `blocks`. -/
structure Ext2 where
  superblock : Superblock
  block_groups : List BlockGroupDescriptor
  blocks : List (List Nat)
  block_size : Nat
  block_offset : Nat
deriving DecidableEq

/-- `TypePerm::DIRECTORY` bit (modelled from the spec: ext2 mode bits). -/
def DIRECTORY : Nat := 0x4000

/-- `TypePerm::FILE` bit (modelled from the spec: ext2 mode bits). -/
def FILE : Nat := 0x8000

/-- Modelled from the spec: on-disk inode record size (§3: superblock-defined,
≥ 128; the source uses `mem::size_of::<Inode>()` of the missing `structs.rs`). -/
def inodeSize : Nat := 128

/-- Modelled from the spec: decoding an inode record out of its 128 raw bytes,
at the standard little-endian ext2 offsets (type_perm at 0, size_low at 4,
direct pointers at 40..87, indirect pointer at 88, size_high at 108). -/
def decode_inode (b : List Nat) : Inode :=
  { type_perm := le16At b 0
    size_low := le32At b 4
    size_high := le32At b 108
    direct_pointer := (List.range 12).map (fun i => le32At b (40 + 4 * i))
    indirect_pointer := le32At b 88 }

/-- `Ext2::get_inode` (main.rs:101-121): locate the group and intra-group
index of a 1-based inode number and read the record out of the inode table.
The source performs no range check: `inode == 0` underflows `inode - 1`
(a debug-build panic), an out-of-range group panics on indexing
`block_groups`, and the `blocks` lookup of the inode table can panic. -/
def get_inode (fs : Ext2) (inode : Nat) : Except RErr Inode :=
  if inode = 0 then .error (.panic "attempt to subtract with overflow")
  else if fs.superblock.inodes_per_group = 0 then
    .error (.panic "attempt to divide by zero")
  else
    match fs.block_groups[(inode - 1) / fs.superblock.inodes_per_group]? with
    | none => .error (.panic "index out of bounds")
    | some bg =>
      if bg.inode_table_block < fs.block_offset then
        .error (.panic "attempt to subtract with overflow")
      else if bg.inode_table_block - fs.block_offset < fs.blocks.length then
        -- the inode table is read byte-contiguously from the table block on
        -- (the Rust block slices are adjacent views of one buffer)
        .ok (decode_inode
          (((fs.blocks.drop (bg.inode_table_block - fs.block_offset)).flatten.drop
            (((inode - 1) % fs.superblock.inodes_per_group) * inodeSize)).take inodeSize))
      else .error (.panic "index out of bounds")

/-- `whole_size` as computed throughout the source:
`((size_high as u64) << 32) + size_low as u64`. -/
def inode_whole_size (root : Inode) : Nat :=
  (root.size_high <<< 32) + root.size_low

/-- Right-trim of trailing zero bytes (recursive form of the source's
backwards scan-and-truncate). -/
def rtrim : List Nat → List Nat
  | [] => []
  | b :: rest =>
    match rtrim rest with
    | [] => if b = 0 then [] else [b]
    | r => b :: r

/-- The trailing-NUL trim at the end of `contiguous_data_from_dir_inode`
(main.rs:195-203): truncate after the last nonzero byte; if no nonzero byte
is found the loop falls through and the data is returned untrimmed. -/
def trimZeros (l : List Nat) : List Nat :=
  if l.all (fun b => b == 0) then l else rtrim l

/-- The direct-pointer gathering loop of `contiguous_data_from_dir_inode`
(main.rs:175-194): `while i < 12 && bytes_read < whole_size`, each step reads
`min(block_size, whole_size - bytes_read)` bytes from block
`direct_pointer[i] - block_offset` (no zero-pointer check: a zero pointer
reached while bytes remain underflows the subtraction). -/
def gather_loop (fs : Ext2) (ws : Nat) : List Nat → Nat → List Nat → Except RErr (List Nat)
  | [], _, acc => .ok acc
  | p :: rest, br, acc =>
    if br < ws then
      if p < fs.block_offset then .error (.panic "attempt to subtract with overflow")
      else
        match fs.blocks[p - fs.block_offset]? with
        | none => .error (.panic "index out of bounds")
        | some blk =>
          gather_loop fs ws rest (br + min fs.block_size (ws - br))
            (acc ++ blk.take (min fs.block_size (ws - br)))
    else .ok acc

/-- `contiguous_data_from_dir_inode` before its final trim: type check plus
the direct-pointer gather (main.rs:164-194). -/
def contiguous_raw (fs : Ext2) (inode : Nat) : Except RErr (List Nat) :=
  match get_inode fs inode with
  | .error e => .error e
  | .ok root =>
    if root.type_perm &&& DIRECTORY = DIRECTORY then
      gather_loop fs (inode_whole_size root) root.direct_pointer 0 []
    else .error .notDirectory

/-- `Ext2::contiguous_data_from_dir_inode` (main.rs:164-204): gather the
directory payload from the direct blocks, then trim trailing NULs. -/
def contiguous_data_from_dir_inode (fs : Ext2) (inode : Nat) : Except RErr (List Nat) :=
  match contiguous_raw fs inode with
  | .error e => .error e
  | .ok data => .ok (trimZeros data)

/-- A `&DirectoryEntry` view as the walker reads it: the fixed header fields
plus the NUL-terminated name starting 8 bytes in. -/
structure DirEntryView where
  inode : Nat
  entry_size : Nat
  name_length : Nat
  name : List Nat
deriving DecidableEq

/-- Reading a `NulStr`: bytes up to (not including) the first NUL.  Bytes past
the trimmed length read as 0, which is exactly what the underlying buffer
holds there (they were trimmed because they were zero). -/
def readNulStr (l : List Nat) : List Nat := l.takeWhile (fun b => b ≠ 0)

/-- The record walk of `read_dir_inode` (main.rs:232-239): read a
`DirectoryEntry` header at the cursor, advance by its `entry_size`, repeat
while the cursor is inside the buffer.  The suffix of the buffer from the
cursor on is passed structurally; `fuel` bounds the iteration count (a stored
`entry_size` of 0 makes the Rust loop diverge). -/
def walk_views : Nat → List Nat → List DirEntryView
  | 0, _ => []
  | fuel + 1, data =>
    if data.length = 0 then []
    else
      { inode := le32At data 0
        entry_size := le16At data 4
        name_length := data.getD 6 0
        name := readNulStr (data.drop 8) } :: walk_views fuel (data.drop (le16At data 4))

/-- `Ext2::read_dir_inode` (main.rs:206-264) up to the entry views it walks.
A failure of `contiguous_data_from_dir_inode` hits `panic!("Whoopsies")`
(main.rs:213); the function's own not-a-directory check at main.rs:222-227 is
only reachable with a directory inode, hence dead for the error it guards. -/
def read_dir_views (fs : Ext2) (inode : Nat) : Except RErr (List DirEntryView) :=
  match contiguous_data_from_dir_inode fs inode with
  | .error (.panic m) => .error (.panic m)
  | .error _ => .error (.panic "Whoopsies")
  | .ok data =>
    match get_inode fs inode with
    | .error e => .error e
    | .ok root =>
      if root.type_perm &&& DIRECTORY = DIRECTORY then
        .ok (walk_views (data.length + 1) data)
      else .error .notDirectory

/-- `Ext2::read_dir_inode`: the `(inode, name)` pairs pushed into `ret_vec`. -/
def read_dir_inode (fs : Ext2) (inode : Nat) : Except RErr (List (Nat × List Nat)) :=
  match read_dir_views fs inode with
  | .error e => .error e
  | .ok vs => .ok (vs.map (fun v => (v.inode, v.name)))

/-- `str::split` on a single separator byte: every occurrence splits, empty
pieces are kept, the result is never the empty list. -/
def splitByte (sep : Nat) : List Nat → List (List Nat)
  | [] => [[]]
  | b :: rest =>
    if b = sep then [] :: splitByte sep rest
    else
      match splitByte sep rest with
      | [] => [[b]]
      | p :: ps => (b :: p) :: ps

/-- The linear scan of the current directory listing in `follow_path`
(main.rs:489-496): first entry whose name equals the candidate component. -/
def find_entry : List (Nat × List Nat) → List Nat → Option Nat
  | [], _ => none
  | (i, n) :: rest, cand => if n = cand then some i else find_entry rest cand

/-- The `while candidate_directories.len() > 0` loop of `follow_path`
(main.rs:485-521), one recursive step per popped component.  On a missing
component it prints "unable to locate" and returns `None`; on a non-directory
child with components remaining it prints "not a directory" and returns
`Some(initial_dir)`; a failed directory re-read prints, `break`s, and falls
through to `return Some(possible_inode)`. -/
def follow_loop (fs : Ext2) (initial_dir : Nat) :
    List (List Nat) → List (Nat × List Nat) → Nat → Except RErr (Option Nat × List Msg)
  | [], _, possible_inode => .ok (some possible_inode, [])
  | cand :: rest, dirs, _ =>
    match find_entry dirs cand with
    | none => .ok (none, [.unableToLocate cand])
    | some child =>
      match get_inode fs child with
      | .error e => .error e
      | .ok ino =>
        if ino.type_perm &&& DIRECTORY ≠ DIRECTORY ∧ rest ≠ [] then
          .ok (some initial_dir, [.notADirectory cand])
        else
          if rest ≠ [] then
            match read_dir_inode fs child with
            | .error (.panic m) => .error (.panic m)
            | .error _ => .ok (some child, [.unableToReadDirectory])
            | .ok dirs' =>
              match follow_loop fs initial_dir rest dirs' child with
              | .error e => .error e
              | .ok (r, ms) => .ok (r, ms)
          else
            match follow_loop fs initial_dir rest dirs child with
            | .error e => .error e
            | .ok (r, ms) => .ok (r, ms)

/-- `Ext2::follow_path` (main.rs:477-523): split the path on '/', capture
`initial_dir = dirs[0].0` (a panic on an empty listing), walk components. -/
def follow_path (fs : Ext2) (path : List Nat) (dirs : List (Nat × List Nat)) :
    Except RErr (Option Nat × List Msg) :=
  match dirs with
  | [] => .error (.panic "index out of bounds")
  | (d0, _) :: _ => follow_loop fs d0 (splitByte 47 path) dirs 2

/-- `Ext2::ls` (main.rs:554-587).  With a path argument: follow the path,
print "unable to follow path" if it failed, then *unconditionally*
`inode.unwrap()` — a panic when the path did not resolve. -/
def ls (fs : Ext2) (dirs : List (Nat × List Nat)) (command : List Nat) :
    Except RErr (Option Unit × List Msg) :=
  let elts := splitByte 32 command
  if elts.length = 1 then .ok (some (), [.listing (dirs.map (fun d => d.2))])
  else
    let paths := elts.getD 1 []
    match follow_path fs paths dirs with
    | .error e => .error e
    | .ok (inodeOpt, ms0) =>
      let ms1 := if inodeOpt.isNone then ms0 ++ [.unableToFollowPath] else ms0
      match inodeOpt with
      | none => .error (.panic "called Option::unwrap() on a None value")
      | some i =>
        match get_inode fs i with
        | .error e => .error e
        | .ok possible_inode =>
          let ms2 := if possible_inode.type_perm &&& DIRECTORY ≠ DIRECTORY
            then ms1 ++ [.notADirectory paths] else ms1
          match read_dir_inode fs i with
          | .error (.panic m) => .error (.panic m)
          | .error _ => .ok (none, ms2 ++ [.unableToReadDirectoryInLs])
          | .ok l => .ok (some (), ms2 ++ [.listing (l.map (fun d => d.2))])

/-- `Ext2::cd` (main.rs:589-610).  With an argument: follow the path; on
success fetch the inode, print "not a directory: {path}" if it is not a
directory — and return `Some(inode)` regardless, so the caller still moves
the cwd there. -/
def cd (fs : Ext2) (dirs : List (Nat × List Nat)) (command : List Nat) :
    Except RErr (Option Nat × List Msg) :=
  let elts := splitByte 32 command
  if elts.length = 1 then .ok (some 2, [])
  else
    let paths := elts.getD 1 []
    match follow_path fs paths dirs with
    | .error e => .error e
    | .ok (none, ms) => .ok (none, ms ++ [.cdUnableToFind paths])
    | .ok (some i, ms) =>
      match get_inode fs i with
      | .error e => .error e
      | .ok possible_inode =>
        if possible_inode.type_perm &&& DIRECTORY = DIRECTORY then .ok (some i, ms)
        else .ok (some i, ms ++ [.notADirectory paths])

/-- One REPL iteration handling a `cd` line (main.rs:782-804): re-read the
cwd listing, dispatch to `cd`, and update `current_working_inode` with the
returned inode when there is one. -/
def repl_cd_step (fs : Ext2) (cwd : Nat) (command : List Nat) :
    Except RErr (Nat × List Msg) :=
  match read_dir_inode fs cwd with
  | .error (.panic m) => .error (.panic m)
  | .error _ => .ok (cwd, [.unableToReadCwd])
  | .ok dirs =>
    match cd fs dirs command with
    | .error e => .error e
    | .ok (none, ms) => .ok (cwd, ms ++ [.unableToReadDirectoryInCd])
    | .ok (some i, ms) => .ok (i, ms)

/-- The direct-pointer loop of `read_file_inode` (main.rs:537-546): zero
pointers are *skipped* (the loop continues over all 12 slots), every nonzero
pointer contributes the `NulStr` read from the start of its block — bytes up
to the first NUL, read out of the contiguous underlying buffer (hence across
block boundaries when the block holds no NUL). -/
def read_file_loop (fs : Ext2) : List Nat → Except RErr (List (List Nat))
  | [] => .ok []
  | p :: rest =>
    if p = 0 then read_file_loop fs rest
    else if p < fs.block_offset then .error (.panic "attempt to subtract with overflow")
    else
      match fs.blocks[p - fs.block_offset]? with
      | none => .error (.panic "index out of bounds")
      | some _ =>
        match read_file_loop fs rest with
        | .error e => .error e
        | .ok l => .ok (readNulStr ((fs.blocks.drop (p - fs.block_offset)).flatten) :: l)

/-- `Ext2::read_file_inode` (main.rs:525-548): check the FILE bit, then one
`NulStr` per nonzero direct pointer. -/
def read_file_inode (fs : Ext2) (inode : Nat) : Except RErr (List (List Nat)) :=
  match get_inode fs inode with
  | .error e => .error e
  | .ok root =>
    if root.type_perm &&& FILE = FILE then read_file_loop fs root.direct_pointer
    else .error .notFile

/-- Modelled from the spec's words for C3 (§4.5): "the concatenation of data
from its direct_pointer[0..12] blocks", whole-block reads, "Blocks with
pointer == 0 terminate", indirect pointers never followed.  This is the
claim's description, to be compared against `read_file_inode` above. -/
def read_file_claim (fs : Ext2) (inode : Nat) : Except RErr (List Nat) :=
  match get_inode fs inode with
  | .error e => .error e
  | .ok root =>
    if root.type_perm &&& FILE = FILE then
      .ok ((root.direct_pointer.takeWhile (fun p => p ≠ 0)).map
        (fun p => fs.blocks.getD (p - fs.block_offset) [])).flatten
    else .error .notFile

/-- Phase 1 of `insert_dir_entry` (main.rs:363-373): walk the records counting
them and remembering the last record's `name_length` field. -/
def scan_records : Nat → List Nat → Nat → Nat → Nat × Nat
  | 0, _, count, lastnl => (count, lastnl)
  | fuel + 1, data, count, lastnl =>
    if data.length = 0 then (count, lastnl)
    else scan_records fuel (data.drop (le16At data 4)) (count + 1) (data.getD 6 0)

/-- Phase 2 of `insert_dir_entry` (main.rs:374-400): re-walk the records; at
the `num`-th record write the two low little-endian bytes of
`last_name_length + 9` (4+2+1+1 header bytes plus 1) over its `entry_size`
field, then advance by the *just rewritten* size.  `off` is the absolute
cursor into `data`, `i` the number of records already passed. -/
def update_last (num lastnl : Nat) : Nat → List Nat → Nat → Nat → List Nat
  | 0, data, _, _ => data
  | fuel + 1, data, off, i =>
    if off < data.length then
      if i + 1 = num then
        update_last num lastnl fuel
          ((data.set (off + 4) ((lastnl + 9) % 256)).set (off + 5) ((lastnl + 9) / 256 % 256))
          (off + le16At
            ((data.set (off + 4) ((lastnl + 9) % 256)).set (off + 5) ((lastnl + 9) / 256 % 256))
            (off + 4))
          (i + 1)
      else update_last num lastnl fuel data (off + le16At data (off + 4)) (i + 1)
    else data

/-- The bytes `insert_dir_entry` appends at the tail of the payload
(main.rs:412-440): the *directory's own* inode number as u32, entry_size
`(8 + name.len() + 1) as u16` (unaligned), name_length `name.len() + 1`
(counting the NUL), the hardcoded type indicator 2, the name, one NUL. -/
def new_entry_bytes (d : Nat) (name : List Nat) : List Nat :=
  le32B (d % 4294967296) ++ le16B ((9 + name.length) % 65536) ++
    [(name.length + 1) % 256, 2] ++ name ++ [0]

/-- The in-memory payload `insert_dir_entry` builds before writing back:
phase 1, phase 2, then the appended record. -/
def insert_payload (d : Nat) (name : List Nat) (data : List Nat) : List Nat :=
  update_last (scan_records (data.length + 1) data 0 0).1
    (scan_records (data.length + 1) data 0 0).2
    (data.length + 1) data 0 0 ++ new_entry_bytes d name

/-- The write-back loop of `write_dir_inode` (main.rs:329-349):
`while i < 12 && bytes_written < whole_size && direct_pointer[i] != 0`, each
step overwrites the first `min(block_size, whole_size - bytes_written)` bytes
of block `direct_pointer[i] - block_offset` with the next chunk of `data`.
Returns the updated block table and the total bytes written. -/
def write_dir_loop (bs off : Nat) (data : List Nat) (ws : Nat) :
    List Nat → Nat → List (List Nat) → Except RErr (List (List Nat) × Nat)
  | [], bw, blocks => .ok (blocks, bw)
  | p :: rest, bw, blocks =>
    if bw < ws ∧ p ≠ 0 then
      if p < off then .error (.panic "attempt to subtract with overflow")
      else
        match blocks[p - off]? with
        | none => .error (.panic "index out of bounds")
        | some blk =>
          write_dir_loop bs off data ws rest (bw + min bs (ws - bw))
            (blocks.set (p - off)
              ((data.drop bw).take (min bs (ws - bw)) ++ blk.drop (min bs (ws - bw))))
    else .ok (blocks, bw)

/-- `Ext2::write_dir_inode` (main.rs:305-353): type check, write the buffer
back into the direct blocks (`whole_size` is `data.len()`), then
`assert!(bytes_written == whole_size)` — a panic when the data did not fit in
the nonzero direct pointers. -/
def write_dir_inode (fs : Ext2) (inode : Nat) (data : List Nat) : Except RErr Ext2 :=
  match get_inode fs inode with
  | .error e => .error e
  | .ok root =>
    if root.type_perm &&& DIRECTORY = DIRECTORY then
      match write_dir_loop fs.block_size fs.block_offset data data.length
          root.direct_pointer 0 fs.blocks with
      | .error e => .error e
      | .ok (blocks', bw) =>
        if bw = data.length then .ok { fs with blocks := blocks' }
        else .error (.panic "assertion failed: bytes_written as u64 == whole_size")
    else .error .notDirectory

/-- `Ext2::insert_dir_entry` (main.rs:355-474).  Note the signature: it takes
the *directory* inode and a name — there is no child-inode parameter; the
appended record reuses `inode` itself.  A failing payload gather hits
`panic!("Whoopsies")`; a failing write-back hits `.expect(...)`. -/
def insert_dir_entry (fs : Ext2) (inode : Nat) (name : List Nat) : Except RErr Ext2 :=
  match contiguous_data_from_dir_inode fs inode with
  | .error (.panic m) => .error (.panic m)
  | .error _ => .error (.panic "Whoopsies")
  | .ok data =>
    match get_inode fs inode with
    | .error e => .error e
    | .ok root =>
      if root.type_perm &&& DIRECTORY = DIRECTORY then
        match write_dir_inode fs inode (insert_payload inode name data) with
        | .error (.panic m) => .error (.panic m)
        | .error _ => .error (.panic "write_dir_inode fails")
        | .ok fs' => .ok fs'
      else .error .notDirectory

/-! ### A concrete 1024-byte-block image used by witnesses and counterexamples

Disk layout (block size 1024, `blocks[0]` is disk block 3, so
`block_offset = 3` as `Ext2::new` computes for a buffer holding superblock,
one descriptor block, then data): block 3 = inode table (8 records of 128
bytes), block 4 = root directory data, block 5 = directory `b` data, block 6
= file `c` data ("hello\n"), block 7 = a second file data block ("world\n").

Inodes: 2 = root directory (entries ".", "..", "b"), 3 = directory `b`
(entries ".", "..", "c"), 4 = regular file `c` (content "hello\n"),
5 = a sparse regular file with direct pointers [6, 0, 7, 0, ...]. -/

/-- Pad a byte list with zeros to one 1024-byte block. -/
def padBlock (l : List Nat) : List Nat := l ++ List.replicate (1024 - l.length) 0

/-- An encoded on-disk directory record: inode, entry_size, name_length,
type indicator, name bytes, zero padding out to `entry_size` bytes. -/
def dirRec (ino es nl ty : Nat) (name : List Nat) : List Nat :=
  le32B ino ++ le16B es ++ [nl, ty] ++ name ++ List.replicate (es - (8 + name.length)) 0

/-- An encoded 128-byte inode record (layout as in `decode_inode`). -/
def inodeRec (tp sizeLow : Nat) (dps : List Nat) : List Nat :=
  le16B tp ++ [0, 0] ++ le32B sizeLow ++ List.replicate 32 0 ++
    (((dps ++ List.replicate 12 0).take 12).map le32B).flatten ++ List.replicate 40 0

/-- The root directory's three records: `.` → 2, `..` → 2, `b` → 3 (the last
record's entry_size is inflated to reach the block boundary). -/
def rootRecs : List (List Nat) :=
  [dirRec 2 12 1 2 [46], dirRec 2 12 2 2 [46, 46], dirRec 3 1000 1 2 [98]]

/-- Directory `b`'s three records: `.` → 3, `..` → 2, `c` → 4. -/
def bRecs : List (List Nat) :=
  [dirRec 3 12 1 2 [46], dirRec 2 12 2 2 [46, 46], dirRec 4 1000 1 2 [99]]

/-- The inode table block of the witness image. -/
def inodeTableBlock : List Nat :=
  inodeRec 0 0 [] ++                                  -- inode 1
  inodeRec 0x41ED 1024 [4] ++                         -- inode 2: root directory
  inodeRec 0x41ED 1024 [5] ++                         -- inode 3: directory b
  inodeRec 0x81A4 6 [6] ++                            -- inode 4: file c
  inodeRec 0x81A4 2048 [6, 0, 7] ++                   -- inode 5: sparse file
  inodeRec 0 0 [] ++ inodeRec 0 0 [] ++ inodeRec 0 0 []

/-- "hello\n". -/
def helloBytes : List Nat := [104, 101, 108, 108, 111, 10]

/-- "world\n". -/
def worldBytes : List Nat := [119, 111, 114, 108, 100, 10]

/-- The concrete witness filesystem view. -/
def fsW : Ext2 :=
  { superblock :=
      { inodes_count := 8, blocks_count := 8, blocks_per_group := 8192
        inodes_per_group := 8, log_block_size := 0, magic := 0xEF53 }
    block_groups := [{ block_usage_bitmap_block := 1, inode_usage_bitmap_block := 2
                       inode_table_block := 3 }]
    blocks := [inodeTableBlock, padBlock rootRecs.flatten, padBlock bRecs.flatten,
               padBlock helloBytes, padBlock worldBytes]
    block_size := 1024
    block_offset := 3 }

/-! ### List and trimming lemmas -/

theorem getD_drop (l : List Nat) (m k : Nat) : (l.drop m).getD k 0 = l.getD (m + k) 0 := by
  simp [List.getD_eq_getElem?_getD, List.getElem?_drop]

theorem getD_set_ne {α : Type} {l : List α} {i j : Nat} (h : i ≠ j) (v d : α) :
    (l.set i v).getD j d = l.getD j d := by
  simp [List.getD_eq_getElem?_getD, List.getElem?_set_ne h]

theorem getD_set_self {α : Type} {l : List α} {i : Nat} (h : i < l.length) (v d : α) :
    (l.set i v).getD i d = v := by
  simp [List.getD_eq_getElem?_getD, List.getElem?_set_self h]

theorem allZero_getD {l : List Nat} (h : l.all (fun b => b == 0) = true) (k : Nat) :
    l.getD k 0 = 0 := by
  induction l generalizing k with
  | nil => simp
  | cons b rest ih =>
    simp only [List.all_cons, Bool.and_eq_true, beq_iff_eq] at h
    cases k with
    | zero => simpa using h.1
    | succ k => simpa using ih h.2 k

theorem rtrim_getD (l : List Nat) (k : Nat) : (rtrim l).getD k 0 = l.getD k 0 := by
  induction l generalizing k with
  | nil => rfl
  | cons b rest ih =>
    have hz : ∀ j, rtrim rest = [] → rest.getD j 0 = 0 := by
      intro j h; have := ih j; rw [h] at this; simpa using this.symm
    unfold rtrim
    cases hr : rtrim rest with
    | nil =>
      by_cases hb : b = 0
      · subst hb; simp only [if_pos rfl]
        cases k with
        | zero => simp
        | succ k =>
          simp only [List.getD_nil, List.getD_cons_succ]
          exact (hz k hr).symm
      · simp only [if_neg hb]
        cases k with
        | zero => simp
        | succ k =>
          simp only [List.getElem?_getD_singleton_default_eq, List.getD_cons_succ]
          exact (hz k hr).symm
    | cons r rs =>
      cases k with
      | zero => simp
      | succ k => have := ih k; rw [hr] at this; simpa using this

theorem rtrim_length_le (l : List Nat) : (rtrim l).length ≤ l.length := by
  induction l with
  | nil => simp [rtrim]
  | cons b rest ih =>
    unfold rtrim
    cases hr : rtrim rest with
    | nil =>
      by_cases hb : b = 0 <;> simp [hb]
    | cons r rs =>
      rw [hr] at ih; simpa using Nat.succ_le_succ ih

theorem lt_rtrim_length {l : List Nat} {k : Nat} (h : l.getD k 0 ≠ 0) :
    k < (rtrim l).length := by
  induction l generalizing k with
  | nil => simp at h
  | cons b rest ih =>
    unfold rtrim
    cases hr : rtrim rest with
    | nil =>
      cases k with
      | zero =>
        simp only [List.getD_cons_zero] at h
        simp [if_neg h]
      | succ k =>
        exfalso
        have := ih (k := k) (by simpa using h)
        rw [hr] at this; simp at this
    | cons r rs =>
      cases k with
      | zero => simp
      | succ k =>
        have := ih (k := k) (by simpa using h)
        rw [hr] at this
        simpa using Nat.succ_lt_succ this

theorem rtrim_cons (b : Nat) (l : List Nat) :
    rtrim (b :: l) =
      match rtrim l with
      | [] => if b = 0 then [] else [b]
      | r => b :: r := rfl

theorem rtrim_cons_of_ne {l : List Nat} (b : Nat) (h : rtrim l ≠ []) :
    rtrim (b :: l) = b :: rtrim l := by
  rw [rtrim_cons]
  cases hr : rtrim l with
  | nil => exact absurd hr h
  | cons r rs => rfl

theorem rtrim_append_ne {ys : List Nat} (xs : List Nat) (h : rtrim ys ≠ []) :
    rtrim (xs ++ ys) = xs ++ rtrim ys := by
  induction xs with
  | nil => simp
  | cons x xs ih =>
    have hne : rtrim (xs ++ ys) ≠ [] := by
      rw [ih]; intro hc
      exact h (by simpa using (List.append_eq_nil.mp hc).2
      )
    rw [List.cons_append, rtrim_cons_of_ne x hne, ih, List.cons_append]

theorem trimZeros_getD (l : List Nat) (k : Nat) : (trimZeros l).getD k 0 = l.getD k 0 := by
  unfold trimZeros
  by_cases h : l.all (fun b => b == 0) = true
  · simp [h]
  · rw [if_neg h]
    exact rtrim_getD l k

theorem trimZeros_length_le (l : List Nat) : (trimZeros l).length ≤ l.length := by
  unfold trimZeros
  by_cases h : l.all (fun b => b == 0) = true
  · simp [h]
  · simp [h, rtrim_length_le]

theorem lt_trimZeros_length {l : List Nat} {k : Nat} (h : l.getD k 0 ≠ 0) :
    k < (trimZeros l).length := by
  unfold trimZeros
  by_cases ha : l.all (fun b => b == 0) = true
  · exact absurd (allZero_getD ha k) h
  · simp [ha, lt_rtrim_length h]

theorem trimZeros_append {ys : List Nat} (xs : List Nat) {k : Nat} (h : ys.getD k 0 ≠ 0) :
    trimZeros (xs ++ ys) = xs ++ trimZeros ys := by
  have hys : ¬ ys.all (fun b => b == 0) = true := fun ha => h (allZero_getD ha k)
  have hxy : ¬ (xs ++ ys).all (fun b => b == 0) = true := by
    intro ha
    exact h (by
      have := allZero_getD ha (xs.length + k)
      rwa [List.getD_append_right _ _ _ _ (Nat.le_add_right _ _),
        Nat.add_sub_cancel_left] at this)
  have hne : rtrim ys ≠ [] := by
    intro hc
    have := lt_rtrim_length h
    rw [hc] at this; simp at this
  unfold trimZeros
  simp [hys, hxy, rtrim_append_ne xs hne]

/-! ### Directory-record chunk structure

A directory payload that satisfies the spec's on-disk invariants is the
concatenation (`flatten`) of encoded records ("chunks"), each exactly
`entry_size` bytes long with the `entry_size` field at bytes 4-5. -/

/-- A well-formed encoded directory record: its stored `entry_size` (bytes
4-5, little-endian) equals its own length, which is at least the 8-byte
fixed header. -/
def chunkWF (c : List Nat) : Prop := le16At c 4 = c.length ∧ 8 ≤ c.length

instance (c : List Nat) : Decidable (chunkWF c) := by unfold chunkWF; infer_instance

/-- Total byte length of a chunk list. -/
def sumLens (cs : List (List Nat)) : Nat := (cs.map List.length).sum

/-- Offset of the last chunk inside the flattened payload. -/
def oLast : List (List Nat) → Nat
  | [] => 0
  | [_] => 0
  | c :: c' :: rest => c.length + oLast (c' :: rest)

/-- The last chunk (empty for an empty list). -/
def lastChunk : List (List Nat) → List Nat
  | [] => []
  | [c] => c
  | _ :: c' :: rest => lastChunk (c' :: rest)

/-- The `name_length` field (byte 6) of the last chunk. -/
def lastNL (cs : List (List Nat)) : Nat := (lastChunk cs).getD 6 0

theorem le16At_append_left {c : List Nat} (rest : List Nat) {k : Nat}
    (h : k + 1 < c.length) : le16At (c ++ rest) k = le16At c k := by
  unfold le16At
  rw [List.getD_append _ _ _ _ (by omega), List.getD_append _ _ _ _ h]

theorem chunk_es_nonzero {c : List Nat} (h : chunkWF c) :
    c.getD 4 0 ≠ 0 ∨ c.getD 5 0 ≠ 0 := by
  by_contra hc
  push_neg at hc
  have h1 := h.1
  have h2 := h.2
  unfold le16At at h1
  rw [show (4 : Nat) + 1 = 5 from rfl, hc.1, hc.2] at h1
  omega

theorem sumLens_cons (c : List Nat) (cs : List (List Nat)) :
    sumLens (c :: cs) = c.length + sumLens cs := by
  simp [sumLens]

theorem oLast_cons {cs : List (List Nat)} (c : List Nat) (h : cs ≠ []) :
    oLast (c :: cs) = c.length + oLast cs := by
  cases cs with
  | nil => exact absurd rfl h
  | cons c' rest => rfl

theorem lastChunk_cons {cs : List (List Nat)} (c : List Nat) (h : cs ≠ []) :
    lastChunk (c :: cs) = lastChunk cs := by
  cases cs with
  | nil => exact absurd rfl h
  | cons c' rest => rfl

theorem lastNL_cons {cs : List (List Nat)} (c : List Nat) (h : cs ≠ []) :
    lastNL (c :: cs) = lastNL cs := by
  unfold lastNL
  rw [lastChunk_cons c h]

theorem lastChunk_mem {cs : List (List Nat)} (h : cs ≠ []) : lastChunk cs ∈ cs := by
  induction cs with
  | nil => exact absurd rfl h
  | cons c rest ih =>
    cases rest with
    | nil => simp [lastChunk]
    | cons c' rest' =>
      rw [lastChunk_cons c (by simp)]
      exact List.mem_cons_of_mem c (ih (by simp))

theorem flatten_getD_oLast {cs : List (List Nat)} (h : cs ≠ []) (k : Nat) :
    cs.flatten.getD (oLast cs + k) 0 = (lastChunk cs).getD k 0 := by
  induction cs with
  | nil => exact absurd rfl h
  | cons c rest ih =>
    cases rest with
    | nil => simp [oLast, lastChunk]
    | cons c' rest' =>
      rw [oLast_cons c (by simp), lastChunk_cons c (by simp), List.flatten_cons,
        Nat.add_assoc, List.getD_append_right _ _ _ _ (Nat.le_add_right _ _),
        Nat.add_sub_cancel_left]
      exact ih (by simp)

theorem oLast_ge {cs : List (List Nat)} (hwf : ∀ c ∈ cs, chunkWF c) :
    8 * (cs.length - 1) ≤ oLast cs := by
  induction cs with
  | nil => simp [oLast]
  | cons c rest ih =>
    cases rest with
    | nil => simp [oLast]
    | cons c' rest' =>
      rw [oLast_cons c (by simp)]
      have h1 : 8 ≤ c.length := (hwf c (by simp)).2
      have h2 := ih (fun x hx => hwf x (List.mem_cons_of_mem c hx))
      simp only [List.length_cons] at h2 ⊢
      omega

theorem trim_last_bound {cs : List (List Nat)} (hcs : cs ≠ [])
    (hwf : ∀ c ∈ cs, chunkWF c) :
    oLast cs + 4 < (trimZeros cs.flatten).length := by
  have hlc := lastChunk_mem hcs
  rcases chunk_es_nonzero (hwf _ hlc) with h4 | h5
  · exact lt_trimZeros_length (by rw [flatten_getD_oLast hcs 4]; exact h4)
  · have : oLast cs + 5 < (trimZeros cs.flatten).length :=
      lt_trimZeros_length (by rw [flatten_getD_oLast hcs 5]; exact h5)
    omega

theorem length_le_trim_length {cs : List (List Nat)} (hcs : cs ≠ [])
    (hwf : ∀ c ∈ cs, chunkWF c) :
    cs.length ≤ (trimZeros cs.flatten).length := by
  have h1 := trim_last_bound hcs hwf
  have h2 := oLast_ge hwf
  have h3 : 1 ≤ cs.length := by
    cases cs with
    | nil => exact absurd rfl hcs
    | cons _ _ => simp
  omega

theorem trim_flatten_length_le (cs : List (List Nat)) :
    (trimZeros cs.flatten).length ≤ sumLens cs := by
  have := trimZeros_length_le cs.flatten
  rwa [List.length_flatten] at this

theorem trim_flatten_head {cs : List (List Nat)} (c : List Nat) (hcs : cs ≠ [])
    (hwf : ∀ x ∈ cs, chunkWF x) :
    trimZeros ((c :: cs).flatten) = c ++ trimZeros cs.flatten := by
  cases cs with
  | nil => exact absurd rfl hcs
  | cons c' rest =>
    rcases chunk_es_nonzero (hwf c' (by simp)) with h | h
    · have hk : (c' :: rest).flatten.getD 4 0 ≠ 0 := by
        rw [List.flatten_cons, List.getD_append _ _ _ _ (by have := (hwf c' (by simp)).2; omega)]
        exact h
      rw [List.flatten_cons, trimZeros_append c hk]
    · have hk : (c' :: rest).flatten.getD 5 0 ≠ 0 := by
        rw [List.flatten_cons, List.getD_append _ _ _ _ (by have := (hwf c' (by simp)).2; omega)]
        exact h
      rw [List.flatten_cons, trimZeros_append c hk]

/-! ### The record walk over a well-formed payload -/

theorem le16At_trim (c : List Nat) (k : Nat) : le16At (trimZeros c) k = le16At c k := by
  unfold le16At
  rw [trimZeros_getD, trimZeros_getD]

theorem walk_views_nil (fuel : Nat) : walk_views fuel [] = [] := by
  cases fuel <;> simp [walk_views]

theorem scan_records_nil (fuel count nl : Nat) : scan_records fuel [] count nl = (count, nl) := by
  cases fuel <;> simp [scan_records]

theorem trim_chunk_ne_nil {c : List Nat} (h : chunkWF c) : (trimZeros c).length ≠ 0 := by
  rcases chunk_es_nonzero h with h4 | h4
  · have := lt_trimZeros_length h4; omega
  · have := lt_trimZeros_length h4; omega

/-- Walking the trimmed flattening of well-formed chunks yields exactly one
entry per chunk, whose `entry_size` and `name_length` fields are the chunk's. -/
theorem walk_views_chunks :
    ∀ cs : List (List Nat), ∀ fuel : Nat, (∀ c ∈ cs, chunkWF c) → cs ≠ [] →
    cs.length ≤ fuel →
    (walk_views fuel (trimZeros cs.flatten)).map (fun v => (v.entry_size, v.name_length)) =
      cs.map (fun c => (c.length, c.getD 6 0)) := by
  intro cs
  induction cs with
  | nil => intro fuel _ hcs _; exact absurd rfl hcs
  | cons c rest ih =>
    intro fuel hwf _ hfuel
    cases fuel with
    | zero => simp at hfuel
    | succ f =>
      have hc : chunkWF c := hwf c (by simp)
      have hc8 : 8 ≤ c.length := hc.2
      by_cases hrest : rest = []
      · subst hrest
        have hflat : ([c] : List (List Nat)).flatten = c := by simp
        rw [hflat]
        unfold walk_views
        rw [if_neg (trim_chunk_ne_nil hc), le16At_trim, hc.1]
        have hdrop : (trimZeros c).drop c.length = [] :=
          List.drop_eq_nil_of_le (trimZeros_length_le c)
        rw [hdrop, walk_views_nil]
        simp only [List.map_cons, List.map_nil, trimZeros_getD]
      · have hwfr : ∀ x ∈ rest, chunkWF x := fun x hx => hwf x (List.mem_cons_of_mem c hx)
        rw [trim_flatten_head c hrest hwfr]
        unfold walk_views
        rw [if_neg (by rw [List.length_append]; omega)]
        rw [le16At_append_left _ (by omega), hc.1,
          List.getD_append _ _ _ _ (by omega), List.drop_left]
        simp only [List.length_cons] at hfuel
        have := ih f hwfr hrest (by omega)
        simp only [List.map_cons, this]

/-- Phase 1 of the insert over the same payload: it counts the chunks and
ends with the last chunk's `name_length`. -/
theorem scan_records_chunks :
    ∀ cs : List (List Nat), ∀ fuel count nl0 : Nat, (∀ c ∈ cs, chunkWF c) → cs ≠ [] →
    cs.length ≤ fuel →
    scan_records fuel (trimZeros cs.flatten) count nl0 = (count + cs.length, lastNL cs) := by
  intro cs
  induction cs with
  | nil => intro fuel _ _ _ hcs _; exact absurd rfl hcs
  | cons c rest ih =>
    intro fuel count nl0 hwf _ hfuel
    cases fuel with
    | zero => simp at hfuel
    | succ f =>
      have hc : chunkWF c := hwf c (by simp)
      have hc8 : 8 ≤ c.length := hc.2
      by_cases hrest : rest = []
      · subst hrest
        have hflat : ([c] : List (List Nat)).flatten = c := by simp
        rw [hflat]
        unfold scan_records
        rw [if_neg (trim_chunk_ne_nil hc), le16At_trim, hc.1]
        have hdrop : (trimZeros c).drop c.length = [] :=
          List.drop_eq_nil_of_le (trimZeros_length_le c)
        rw [hdrop, scan_records_nil]
        simp only [lastNL, lastChunk, trimZeros_getD, List.length_cons, List.length_nil]
      · have hwfr : ∀ x ∈ rest, chunkWF x := fun x hx => hwf x (List.mem_cons_of_mem c hx)
        rw [trim_flatten_head c hrest hwfr]
        unfold scan_records
        rw [if_neg (by rw [List.length_append]; omega)]
        rw [le16At_append_left _ (by omega), hc.1, List.drop_left]
        simp only [List.length_cons] at hfuel
        rw [ih f (count + 1) _ hwfr hrest (by omega)]
        rw [lastNL_cons c hrest]
        simp only [List.length_cons]
        congr 1
        omega

/-! ### Phase 2 of the insert -/

theorem update_last_no_write :
    ∀ fuel data off i num nl, num ≤ i → update_last num nl fuel data off i = data := by
  intro fuel
  induction fuel with
  | zero => intro data off i num nl _; rfl
  | succ f ih =>
    intro data off i num nl h
    unfold update_last
    by_cases ho : off < data.length
    · rw [if_pos ho, if_neg (by omega)]
      exact ih data _ (i + 1) num nl (by omega)
    · rw [if_neg ho]

theorem update_last_length :
    ∀ fuel data off i num nl, (update_last num nl fuel data off i).length = data.length := by
  intro fuel
  induction fuel with
  | zero => intro data off i num nl; rfl
  | succ f ih =>
    intro data off i num nl
    unfold update_last
    by_cases ho : off < data.length
    · rw [if_pos ho]
      by_cases hi : i + 1 = num
      · rw [if_pos hi, ih]; simp
      · rw [if_neg hi, ih]
    · rw [if_neg ho]

/-- Phase 2 over a well-formed payload suffix: starting `i` records in with
`cs` records left (the last of the whole directory among them), the only
mutation is the two-byte `entry_size` overwrite of the final record, with
the value `lastnl + 9` — `8 + name_length + 1`, *not* rounded up to 4-byte
alignment. -/
theorem update_last_chunks :
    ∀ cs : List (List Nat), ∀ data : List Nat, ∀ off i fuel : Nat,
    (∀ c ∈ cs, chunkWF c) → cs ≠ [] →
    (∀ k, data.getD (off + k) 0 = cs.flatten.getD k 0) →
    data.length ≤ off + sumLens cs →
    off + oLast cs + 4 < data.length →
    cs.length ≤ fuel →
    update_last (i + cs.length) (lastNL cs) fuel data off i =
      (data.set (off + oLast cs + 4) ((lastNL cs + 9) % 256)).set
        (off + oLast cs + 5) ((lastNL cs + 9) / 256 % 256) := by
  intro cs
  induction cs with
  | nil => intro data off i fuel _ hcs _ _ _ _; exact absurd rfl hcs
  | cons c rest ih =>
    intro data off i fuel hwf _ hagree hlen hbound hfuel
    cases fuel with
    | zero => simp at hfuel
    | succ f =>
      have hc : chunkWF c := hwf c (by simp)
      have hc8 : 8 ≤ c.length := hc.2
      by_cases hrest : rest = []
      · subst hrest
        have hnum : i + ([c] : List (List Nat)).length = i + 1 := by simp
        rw [hnum]
        have ho4 : off + oLast [c] + 4 = off + 4 := by simp [oLast]
        have ho5 : off + oLast [c] + 5 = off + 5 := by simp [oLast]
        rw [ho4, ho5]
        unfold update_last
        rw [if_pos (by simp [oLast] at hbound; omega), if_pos rfl]
        exact update_last_no_write f _ _ (i + 1) (i + 1) _ (le_refl _)
      · have hco : oLast (c :: rest) = c.length + oLast rest := oLast_cons c hrest
        have hrl : 1 ≤ rest.length := by
          cases rest with
          | nil => exact absurd rfl hrest
          | cons _ _ => simp
        unfold update_last
        rw [if_pos (by omega), if_neg (by simp only [List.length_cons]; omega)]
        have hes : le16At data (off + 4) = c.length := by
          unfold le16At
          have h4 := hagree 4
          have h5 := hagree 5
          rw [List.flatten_cons, List.getD_append _ _ _ _ (by omega)] at h4
          rw [List.flatten_cons, List.getD_append _ _ _ _ (by omega)] at h5
          rw [show off + 4 + 1 = off + 5 from rfl, h4, h5]
          have := hc.1
          unfold le16At at this
          rw [show (4 : Nat) + 1 = 5 from rfl] at this
          exact this
        rw [hes]
        have hwfr : ∀ x ∈ rest, chunkWF x := fun x hx => hwf x (List.mem_cons_of_mem c hx)
        have hagree' : ∀ k, data.getD (off + c.length + k) 0 = rest.flatten.getD k 0 := by
          intro k
          have := hagree (c.length + k)
          rw [List.flatten_cons, List.getD_append_right _ _ _ _ (by omega),
            Nat.add_sub_cancel_left] at this
          rw [← this]
          congr 1
          omega
        have hlen' : data.length ≤ off + c.length + sumLens rest := by
          rw [sumLens_cons] at hlen; omega
        have hbound' : off + c.length + oLast rest + 4 < data.length := by omega
        have := ih data (off + c.length) (i + 1) f hwfr hrest hagree' hlen' hbound'
          (by simp only [List.length_cons] at hfuel; omega)
        rw [show i + 1 + rest.length = i + (c :: rest).length by simp; omega] at this
        rw [lastNL_cons c hrest]
        rw [this]
        congr 2 <;> omega

/-! ### Write-back loop lemmas -/

theorem contiguous_of_raw {fs : Ext2} {d : Nat} {l : List Nat}
    (h : contiguous_raw fs d = .ok l) :
    contiguous_data_from_dir_inode fs d = .ok (trimZeros l) := by
  unfold contiguous_data_from_dir_inode
  rw [h]

theorem rest_avoids {p : Nat} {rest : List Nat} {off : Nat} (hp : p ≠ 0) (hpoff : ¬ p < off)
    (hnd : ((p :: rest).filter (fun x => x != 0)).Nodup) :
    ∀ q ∈ rest, q = 0 ∨ q < off ∨ q - off ≠ p - off := by
  intro q hq
  by_cases hq0 : q = 0
  · exact Or.inl hq0
  by_cases hqoff : q < off
  · exact Or.inr (Or.inl hqoff)
  · right; right
    have hfil : (p :: rest).filter (fun x => x != 0) = p :: rest.filter (fun x => x != 0) := by
      simp [List.filter_cons, hp]
    rw [hfil, List.nodup_cons] at hnd
    have hqf : q ∈ rest.filter (fun x => x != 0) :=
      List.mem_filter.mpr ⟨hq, by simp [hq0]⟩
    have hne : q ≠ p := fun he => hnd.1 (he ▸ hqf)
    omega

theorem nodup_filter_tail {p : Nat} {rest : List Nat}
    (hnd : ((p :: rest).filter (fun x => x != 0)).Nodup) :
    (rest.filter (fun x => x != 0)).Nodup := by
  by_cases hp : p = 0
  · rwa [List.filter_cons, if_neg (by simp [hp])] at hnd
  · rw [List.filter_cons, if_pos (by simp [hp]), List.nodup_cons] at hnd
    exact hnd.2

/-- Frame property of the write-back loop: every block whose index is not
named by a (nonzero, in-range) pointer in the list is untouched, and the
table's length is preserved. -/
theorem write_loop_frame :
    ∀ (bs off : Nat) (data : List Nat) (ws : Nat) (dps : List Nat) (bw : Nat)
      (blocks blocks' : List (List Nat)) (bw' : Nat),
    write_dir_loop bs off data ws dps bw blocks = .ok (blocks', bw') →
    blocks'.length = blocks.length ∧
    ∀ j, (∀ p ∈ dps, p = 0 ∨ p < off ∨ p - off ≠ j) →
      blocks'.getD j [] = blocks.getD j [] := by
  intro bs off data ws dps
  induction dps with
  | nil =>
    intro bw blocks blocks' bw' h
    unfold write_dir_loop at h
    simp only [Except.ok.injEq, Prod.mk.injEq] at h
    rw [← h.1]
    exact ⟨rfl, fun _ _ => rfl⟩
  | cons p rest ih =>
    intro bw blocks blocks' bw' h
    unfold write_dir_loop at h
    by_cases hcond : bw < ws ∧ p ≠ 0
    · rw [if_pos hcond] at h
      by_cases hpo : p < off
      · rw [if_pos hpo] at h
        exact absurd h (by simp)
      · rw [if_neg hpo] at h
        cases hblk : blocks[p - off]? with
        | none => rw [hblk] at h; exact absurd h (by simp)
        | some blk =>
          rw [hblk] at h
          obtain ⟨ihlen, ihframe⟩ := ih _ _ _ _ h
          refine ⟨by rw [ihlen, List.length_set], ?_⟩
          intro j hj
          have hrest : ∀ q ∈ rest, q = 0 ∨ q < off ∨ q - off ≠ j :=
            fun q hq => hj q (List.mem_cons_of_mem p hq)
          rw [ihframe j hrest]
          rcases hj p (by simp) with h0 | ho | hne
          · exact absurd h0 hcond.2
          · exact absurd ho hpo
          · exact getD_set_ne hne _ _
    · rw [if_neg hcond] at h
      simp only [Except.ok.injEq, Prod.mk.injEq] at h
      rw [← h.1]
      exact ⟨rfl, fun _ _ => rfl⟩

/-- Every block after the write-back is a chunk of `data` followed by the
untouched tail of the old block (for untouched blocks, the degenerate chunk
of length 0). -/
theorem write_loop_shape :
    ∀ (bs off : Nat) (data : List Nat) (ws : Nat) (dps : List Nat) (bw : Nat)
      (blocks blocks' : List (List Nat)) (bw' : Nat),
    write_dir_loop bs off data ws dps bw blocks = .ok (blocks', bw') →
    (dps.filter (fun p => p != 0)).Nodup →
    bw ≤ ws →
    ∀ j, ∃ s n, s + n ≤ ws ∧
      blocks'.getD j [] = (data.drop s).take n ++ (blocks.getD j []).drop n := by
  intro bs off data ws dps
  induction dps with
  | nil =>
    intro bw blocks blocks' bw' h hnd hbw j
    unfold write_dir_loop at h
    simp only [Except.ok.injEq, Prod.mk.injEq] at h
    exact ⟨0, 0, by omega, by rw [← h.1]; simp⟩
  | cons p rest ih =>
    intro bw blocks blocks' bw' h hnd hbw j
    unfold write_dir_loop at h
    by_cases hcond : bw < ws ∧ p ≠ 0
    · rw [if_pos hcond] at h
      by_cases hpo : p < off
      · rw [if_pos hpo] at h
        exact absurd h (by simp)
      · rw [if_neg hpo] at h
        cases hblk : blocks[p - off]? with
        | none => rw [hblk] at h; exact absurd h (by simp)
        | some blk =>
          rw [hblk] at h
          have hn : min bs (ws - bw) ≤ ws - bw := Nat.min_le_right _ _
          by_cases hj : j = p - off
          · subst hj
            obtain ⟨_, hframe⟩ := write_loop_frame _ _ _ _ _ _ _ _ _ h
            rw [hframe _ (rest_avoids hcond.2 hpo hnd)]
            have hjlt : p - off < blocks.length := by
              have := List.getElem?_eq_some_iff.mp hblk
              exact this.1
            refine ⟨bw, min bs (ws - bw), by omega, ?_⟩
            rw [getD_set_self hjlt _ _]
            congr 1
            rw [List.getD_eq_getElem?_getD, hblk, Option.getD_some]
          · obtain ⟨s, n, hsn, hshape⟩ :=
              ih _ _ _ _ h (nodup_filter_tail hnd) (by omega) j
            exact ⟨s, n, hsn, by rw [hshape, getD_set_ne (fun he => hj he.symm) _ _]⟩
    · rw [if_neg hcond] at h
      simp only [Except.ok.injEq, Prod.mk.injEq] at h
      exact ⟨0, 0, by omega, by rw [← h.1]; simp⟩

/-- Reading the first `data.length` bytes back out of the direct blocks after
a completed write-back returns exactly `data`. -/
theorem write_then_gather :
    ∀ (dps : List Nat) (bw : Nat) (blocks blocks' : List (List Nat)) (fs' : Ext2)
      (data : List Nat) (bs off : Nat),
    write_dir_loop bs off data data.length dps bw blocks = .ok (blocks', data.length) →
    (dps.filter (fun p => p != 0)).Nodup →
    fs'.blocks = blocks' → fs'.block_size = bs → fs'.block_offset = off →
    ∀ acc, gather_loop fs' data.length dps bw acc
      = .ok (acc ++ (data.drop bw).take (data.length - bw)) := by
  intro dps
  induction dps with
  | nil =>
    intro bw blocks blocks' fs' data bs off h hnd hb hs ho acc
    unfold write_dir_loop at h
    simp only [Except.ok.injEq, Prod.mk.injEq] at h
    unfold gather_loop
    rw [h.2]
    simp
  | cons p rest ih =>
    intro bw blocks blocks' fs' data bs off h hnd hb hs ho acc
    unfold write_dir_loop at h
    by_cases hcond : bw < data.length ∧ p ≠ 0
    · rw [if_pos hcond] at h
      by_cases hpo : p < off
      · rw [if_pos hpo] at h
        exact absurd h (by simp)
      · rw [if_neg hpo] at h
        cases hblk : blocks[p - off]? with
        | none => rw [hblk] at h; exact absurd h (by simp)
        | some blk =>
          rw [hblk] at h
          have hjlt : p - off < blocks.length := (List.getElem?_eq_some_iff.mp hblk).1
          have hn : min bs (data.length - bw) ≤ data.length - bw := Nat.min_le_right _ _
          obtain ⟨hlen', hframe⟩ := write_loop_frame _ _ _ _ _ _ _ _ _ h
          have hlen2 : blocks'.length = blocks.length := by
            rw [hlen', List.length_set]
          have hnewblk : blocks'.getD (p - off) [] =
              (data.drop bw).take (min bs (data.length - bw)) ++
                blk.drop (min bs (data.length - bw)) := by
            rw [hframe _ (rest_avoids hcond.2 hpo hnd), getD_set_self hjlt _ _]
          unfold gather_loop
          rw [if_pos (by omega), if_neg (by rw [ho]; exact hpo)]
          have hjlt' : p - off < blocks'.length := by omega
          have hsome : fs'.blocks[p - fs'.block_offset]? =
              some (blocks'.getD (p - off) []) := by
            rw [hb, ho, List.getD_eq_getElem?_getD, List.getElem?_eq_getElem hjlt']
            rfl
          simp only [hsome]
          have hclen : ((data.drop bw).take (min bs (data.length - bw))).length =
              min bs (data.length - bw) := by
            rw [List.length_take, List.length_drop]
            omega
          have htake : (blocks'.getD (p - off) []).take
              (min fs'.block_size (data.length - bw)) =
              (data.drop bw).take (min bs (data.length - bw)) := by
            rw [hs, hnewblk, List.take_append_eq_append_take, hclen, Nat.sub_self,
              List.take_zero, List.append_nil, List.take_of_length_le (le_of_eq hclen)]
          rw [htake, hs]
          rw [ih _ _ _ _ _ _ _ h (nodup_filter_tail hnd) hb hs ho _]
          rw [List.append_assoc]
          congr 1
          rw [← List.drop_drop, ← List.take_add]
          have hx : bs ⊓ (data.length - bw) ≤ data.length - bw := hn
          generalize bs ⊓ (data.length - bw) = n at hx ⊢
          rw [show n + (data.length - (bw + n)) = data.length - bw from by omega]
    · rw [if_neg hcond] at h
      simp only [Except.ok.injEq, Prod.mk.injEq] at h
      have hbw : bw = data.length := h.2
      unfold gather_loop
      rw [if_neg (by omega), hbw]
      simp

/-! ### Stability of the inode record under data-block writes -/

theorem window_append {x r : List Nat} {s n : Nat} (h : s + n ≤ x.length) :
    ((x ++ r).drop s).take n = (x.drop s).take n := by
  rw [List.drop_append_eq_append_drop, Nat.sub_eq_zero_of_le (by omega), List.drop_zero,
    List.take_append_eq_append_take,
    Nat.sub_eq_zero_of_le (by rw [List.length_drop]; omega),
    List.take_zero, List.append_nil]

theorem window_from_block {bls bls' : List (List Nat)} {itb s n : Nat}
    (hg : bls'.getD itb [] = bls.getD itb []) (hlen : bls'.length = bls.length)
    (hlt : itb < bls.length) (hwin : s + n ≤ (bls.getD itb []).length) :
    ((bls'.drop itb).flatten.drop s).take n = ((bls.drop itb).flatten.drop s).take n := by
  have hlt' : itb < bls'.length := by omega
  rw [List.drop_eq_getElem_cons hlt, List.drop_eq_getElem_cons hlt',
    List.flatten_cons, List.flatten_cons]
  have h1 : bls[itb] = bls.getD itb [] := by
    rw [List.getD_eq_getElem?_getD, List.getElem?_eq_getElem hlt]; rfl
  have h2 : bls'[itb] = bls'.getD itb [] := by
    rw [List.getD_eq_getElem?_getD, List.getElem?_eq_getElem hlt']; rfl
  rw [h1, h2, hg, window_append hwin, window_append hwin]

/-- Evaluating `get_inode` on the non-panicking path. -/
theorem get_inode_eq (fs : Ext2) (n : Nat) (bg : BlockGroupDescriptor)
    (hn : ¬ n = 0) (hipg : ¬ fs.superblock.inodes_per_group = 0)
    (hbg : fs.block_groups[(n - 1) / fs.superblock.inodes_per_group]? = some bg)
    (hole : ¬ bg.inode_table_block < fs.block_offset)
    (hitl : bg.inode_table_block - fs.block_offset < fs.blocks.length) :
    get_inode fs n = .ok (decode_inode
      (((fs.blocks.drop (bg.inode_table_block - fs.block_offset)).flatten.drop
        (((n - 1) % fs.superblock.inodes_per_group) * inodeSize)).take inodeSize)) := by
  unfold get_inode
  rw [if_neg hn, if_neg hipg]
  simp only [hbg]
  rw [if_neg hole, if_pos hitl]

/-- `get_inode` is unchanged by replacing the block table with one agreeing
on the (whole) inode-table block that holds the record, provided the record
does not spill past that block. -/
theorem get_inode_stable (fs : Ext2) (blocks' : List (List Nat)) (n : Nat)
    (bg : BlockGroupDescriptor)
    (hn : ¬ n = 0) (hipg : ¬ fs.superblock.inodes_per_group = 0)
    (hbg : fs.block_groups[(n - 1) / fs.superblock.inodes_per_group]? = some bg)
    (hole : ¬ bg.inode_table_block < fs.block_offset)
    (hitl : bg.inode_table_block - fs.block_offset < fs.blocks.length)
    (hlen : blocks'.length = fs.blocks.length)
    (hsame : blocks'.getD (bg.inode_table_block - fs.block_offset) [] =
      fs.blocks.getD (bg.inode_table_block - fs.block_offset) [])
    (hwin : ((n - 1) % fs.superblock.inodes_per_group) * inodeSize + inodeSize ≤
      (fs.blocks.getD (bg.inode_table_block - fs.block_offset) []).length) :
    get_inode { fs with blocks := blocks' } n = get_inode fs n := by
  rw [get_inode_eq fs n bg hn hipg hbg hole hitl,
    get_inode_eq { fs with blocks := blocks' } n bg hn hipg hbg hole
      (by show bg.inode_table_block - fs.block_offset < blocks'.length; omega)]
  congr 1
  apply congrArg decode_inode
  exact window_from_block hsame hlen hitl hwin

/-! ### The payload built by `insert_dir_entry` -/

/-- Over a well-formed directory payload, `insert_dir_entry`'s in-memory
transformation is exactly: overwrite the two `entry_size` bytes of the final
record with `name_length + 9` (`8 + name_length + 1`, unaligned), then append
the new record. -/
theorem insert_payload_chunks (d : Nat) (name : List Nat) (cs : List (List Nat))
    (hwf : ∀ c ∈ cs, chunkWF c) (hcs : cs ≠ []) :
    insert_payload d name (trimZeros cs.flatten) =
      ((trimZeros cs.flatten).set (oLast cs + 4) ((lastNL cs + 9) % 256)).set
        (oLast cs + 5) ((lastNL cs + 9) / 256 % 256) ++ new_entry_bytes d name := by
  have hfuel : cs.length ≤ (trimZeros cs.flatten).length + 1 := by
    have := length_le_trim_length hcs hwf
    omega
  have hscan := scan_records_chunks cs ((trimZeros cs.flatten).length + 1) 0 0 hwf hcs hfuel
  have hagree : ∀ k, (trimZeros cs.flatten).getD (0 + k) 0 = cs.flatten.getD k 0 := by
    intro k
    rw [Nat.zero_add]
    exact trimZeros_getD _ k
  have hlen : (trimZeros cs.flatten).length ≤ 0 + sumLens cs := by
    have := trim_flatten_length_le cs
    omega
  have hbound : 0 + oLast cs + 4 < (trimZeros cs.flatten).length := by
    have := trim_last_bound hcs hwf
    omega
  have hupd := update_last_chunks cs (trimZeros cs.flatten) 0 0
    ((trimZeros cs.flatten).length + 1) hwf hcs hagree hlen hbound hfuel
  unfold insert_payload
  rw [hscan]
  simp only [Nat.zero_add] at hupd ⊢
  rw [hupd]

/-- Inverting a successful `insert_dir_entry`: the directory bit was set, the
write-back loop completed over the whole payload, and the result is `fs` with
only `blocks` replaced. -/
theorem insert_ok_inversion {fs fs' : Ext2} {d : Nat} {name : List Nat}
    {root : Inode} {data : List Nat}
    (hroot : get_inode fs d = .ok root)
    (hdata : contiguous_data_from_dir_inode fs d = .ok data)
    (hins : insert_dir_entry fs d name = .ok fs') :
    root.type_perm &&& DIRECTORY = DIRECTORY ∧
    ∃ blocks',
      write_dir_loop fs.block_size fs.block_offset (insert_payload d name data)
        (insert_payload d name data).length root.direct_pointer 0 fs.blocks =
        .ok (blocks', (insert_payload d name data).length) ∧
      fs' = { fs with blocks := blocks' } := by
  unfold insert_dir_entry write_dir_inode at hins
  simp only [hdata, hroot] at hins
  by_cases hdir : root.type_perm &&& DIRECTORY = DIRECTORY
  · refine ⟨hdir, ?_⟩
    simp only [if_pos hdir] at hins
    cases hw : write_dir_loop fs.block_size fs.block_offset (insert_payload d name data)
        (insert_payload d name data).length root.direct_pointer 0 fs.blocks with
    | error e =>
      rw [hw] at hins
      cases e <;> simp at hins
    | ok pr =>
      obtain ⟨blocks1, bw1⟩ := pr
      rw [hw] at hins
      have hins2 : (match (if bw1 = (insert_payload d name data).length then
            Except.ok { fs with blocks := blocks1 }
          else Except.error (RErr.panic
            "assertion failed: bytes_written as u64 == whole_size")) with
        | Except.error (RErr.panic m) => Except.error (RErr.panic m)
        | Except.error _ => Except.error (RErr.panic "write_dir_inode fails")
        | Except.ok fsX => Except.ok fsX) = Except.ok fs' := hins
      by_cases hbw : bw1 = (insert_payload d name data).length
      · subst hbw
        rw [if_pos rfl] at hins2
        exact ⟨blocks1, rfl, (Except.ok.inj hins2).symm⟩
      · rw [if_neg hbw] at hins2
        exact absurd hins2 (by simp)
  · rw [if_neg hdir] at hins
    simp at hins

theorem uniform_of_map_length {bls : List (List Nat)} {bs : Nat}
    (h : bls.map List.length = List.replicate bls.length bs) :
    ∀ b ∈ bls, b.length = bs := by
  induction bls with
  | nil => simp
  | cons x xs ih =>
    simp only [List.map_cons, List.length_cons, List.replicate_succ,
      List.cons.injEq] at h
    intro b hb
    rcases List.mem_cons.mp hb with rfl | hb'
    · exact h.1
    · exact ih h.2 b hb'

/-! ### Named concrete values of the witness image -/

/-- The decoded root-directory inode (inode 2) of `fsW`. -/
def rootW : Inode := ⟨0x41ED, 1024, 0, [4, 0, 0, 0, 0, 0, 0, 0, 0, 0, 0, 0], 0⟩

/-- The decoded inode of regular file `c` (inode 4) of `fsW`. -/
def fileCW : Inode := ⟨0x81A4, 6, 0, [6, 0, 0, 0, 0, 0, 0, 0, 0, 0, 0, 0], 0⟩

/-- The decoded inode of the sparse regular file (inode 5) of `fsW`: its
direct pointers are `[6, 0, 7, 0, ...]` — a nonzero pointer after a zero. -/
def fileSW : Inode := ⟨0x81A4, 2048, 0, [6, 0, 7, 0, 0, 0, 0, 0, 0, 0, 0, 0], 0⟩

/-- `list(2)` on the witness image: ".", "..", "b". -/
def dirsRootW : List (Nat × List Nat) := [(2, [46]), (2, [46, 46]), (3, [98])]

/-- `list(3)` (directory `b`) on the witness image: ".", "..", "c". -/
def bListingW : List (Nat × List Nat) := [(3, [46]), (2, [46, 46]), (4, [99])]

/-- The trimmed root-directory payload of `fsW` (33 bytes: the "b" record's
zero padding is trimmed after the name byte). -/
def rootDataW : List Nat := trimZeros rootRecs.flatten

/-- `round_up(n, 4)`: the 4-byte alignment the spec's claim C5 describes. -/
def round_up4 (n : Nat) : Nat := (n + 3) / 4 * 4

/-! ### Claim theorems -/

/-- C2: the claim says `cd b/c` (where `c` is a regular file) prints
"not a directory: c" and leaves the cwd unchanged.  On the witness image the
code instead prints "not a directory: b/c" (the whole path argument, printed
by `cd` at main.rs:604-606) and then still returns `Some(inode of c)`
(main.rs:607), so the REPL sets the cwd to the file's inode 4 ≠ 2. -/
theorem cd_into_file_moves_cwd :
    repl_cd_step fsW 2 [99, 100, 32, 98, 47, 99] =
      .ok (4, [.notADirectory [98, 47, 99]]) ∧
    (4 : Nat) ≠ 2 ∧ ([98, 47, 99] : List Nat) ≠ [99] :=
  ⟨rfl, by decide, by decide⟩

/-- C4 counterexample: `read_dir_inode` applied to the regular-file inode 4
of the witness image panics with "Whoopsies" (main.rs:213) instead of
returning the structured "inode is not a directory" error to its caller. -/
theorem read_dir_inode_nondir_cex :
    read_dir_inode fsW 4 = .error (.panic "Whoopsies") ∧
    RErr.panic "Whoopsies" ≠ RErr.notDirectory :=
  ⟨rfl, by decide⟩

/-- C4 (amended): for every inode whose `type_perm` lacks the DIRECTORY bit,
`read_dir_inode` panics ("Whoopsies") rather than returning the error; the
structured "inode is not a directory" error value is produced one level
down, by `contiguous_data_from_dir_inode`, and swallowed by the panic. -/
theorem read_dir_inode_nondir_panics (fs : Ext2) (n : Nat) (root : Inode)
    (hroot : get_inode fs n = .ok root)
    (hnd : ¬ root.type_perm &&& DIRECTORY = DIRECTORY) :
    read_dir_inode fs n = .error (.panic "Whoopsies") ∧
    contiguous_data_from_dir_inode fs n = .error .notDirectory := by
  have hraw : contiguous_raw fs n = .error .notDirectory := by
    unfold contiguous_raw
    simp only [hroot]
    rw [if_neg hnd]
  have hcd : contiguous_data_from_dir_inode fs n = .error .notDirectory := by
    unfold contiguous_data_from_dir_inode
    rw [hraw]
  refine ⟨?_, hcd⟩
  unfold read_dir_inode read_dir_views
  rw [hcd]

/-- C4 witness: the general theorem applied to the witness image's file
inode 4. -/
theorem read_dir_inode_nondir_panics_witness :
    read_dir_inode fsW 4 = .error (.panic "Whoopsies") ∧
    contiguous_data_from_dir_inode fsW 4 = .error .notDirectory :=
  read_dir_inode_nondir_panics fsW 4 fileCW rfl (by decide)

/-- C7 counterexample: resolving `b/c/x` on the witness image (where `c` is
a regular file and a component remains after it) does not fail — it prints
the diagnostic but returns `Some 2`, the inode of the *starting* directory
(main.rs:507), a successfully resolved inode number. -/
theorem follow_path_nondir_cex :
    follow_path fsW [98, 47, 99, 47, 120] dirsRootW =
      .ok (some 2, [.notADirectory [99]]) ∧
    (some 2 : Option Nat) ≠ none :=
  ⟨rfl, by decide⟩

/-- C7 (amended): when a matched child inode is not a directory and path
components remain, `follow_path`'s loop prints "not a directory" and returns
`Some(initial_dir)` — the inode captured from the starting listing's first
entry — instead of the `None` failure signal. -/
theorem follow_loop_nondir_returns_initial (fs : Ext2) (initial cur child : Nat)
    (cand : List Nat) (rest : List (List Nat)) (dirs : List (Nat × List Nat))
    (ino : Inode)
    (hfind : find_entry dirs cand = some child)
    (hino : get_inode fs child = .ok ino)
    (hnotdir : ¬ ino.type_perm &&& DIRECTORY = DIRECTORY)
    (hrest : rest ≠ []) :
    follow_loop fs initial (cand :: rest) dirs cur =
      .ok (some initial, [.notADirectory cand]) := by
  unfold follow_loop
  simp only [hfind, hino]
  rw [if_pos ⟨hnotdir, hrest⟩]

/-- C7 witness: the general theorem applied inside the witness image, at the
component "c" (a file) with component "x" remaining. -/
theorem follow_loop_nondir_returns_initial_witness :
    follow_loop fsW 2 [[99], [120]] bListingW 3 =
      .ok (some 2, [.notADirectory [99]]) :=
  follow_loop_nondir_returns_initial fsW 2 3 4 [99] [[120]] bListingW fileCW
    rfl rfl (by decide) (by decide)

/-- C8 counterexample: on the witness image (8 inodes), `get_inode 0`
panics on the `inode - 1` underflow and `get_inode 9` panics indexing
`block_groups` — neither out-of-range argument produces a "no such inode"
error result. -/
theorem get_inode_out_of_range_cex :
    get_inode fsW 0 = .error (.panic "attempt to subtract with overflow") ∧
    get_inode fsW 9 = .error (.panic "index out of bounds") ∧
    9 > fsW.superblock.inodes_count :=
  ⟨rfl, rfl, by decide⟩

/-- C8 (amended): `get_inode` performs no range check at all — its result
does not depend on `inodes_count` in any state, and `inode = 0` always hits
the subtraction-overflow panic rather than an error return. -/
theorem get_inode_no_range_check (fs : Ext2) (c n : Nat) :
    get_inode { fs with superblock := { fs.superblock with inodes_count := c } } n =
      get_inode fs n ∧
    get_inode fs 0 = .error (.panic "attempt to subtract with overflow") :=
  ⟨rfl, rfl⟩

/-- C9: the claim says every lookup error surfaced during a command is
printed as a one-line diagnostic after which the REPL returns to the prompt.
But `ls` on a path that fails to resolve prints its diagnostic and then
calls `inode.unwrap()` on `None` (main.rs:567) — the process panics instead
of returning to the prompt. -/
theorem ls_unresolved_path_panics :
    read_dir_inode fsW 2 = .ok dirsRootW ∧
    ls fsW dirsRootW [108, 115, 32, 110, 111, 115, 117, 99, 104] =
      .error (.panic "called Option::unwrap() on a None value") :=
  ⟨rfl, rfl⟩

theorem read_file_loop_spec (fs : Ext2) :
    ∀ dps : List Nat,
    (∀ p ∈ dps, p ≠ 0 → fs.block_offset ≤ p ∧ p - fs.block_offset < fs.blocks.length) →
    read_file_loop fs dps = .ok ((dps.filter (fun p => p != 0)).map
      (fun p => readNulStr ((fs.blocks.drop (p - fs.block_offset)).flatten))) := by
  intro dps
  induction dps with
  | nil => intro _; rfl
  | cons p rest ih =>
    intro hval
    have hrest := fun q hq h0 => hval q (List.mem_cons_of_mem p hq) h0
    unfold read_file_loop
    by_cases hp : p = 0
    · rw [if_pos hp, ih hrest, List.filter_cons, if_neg (by simp [hp])]
    · rw [if_neg hp]
      obtain ⟨hle, hlt⟩ := hval p (by simp) hp
      rw [if_neg (by omega)]
      have hsome : fs.blocks[p - fs.block_offset]? = some fs.blocks[p - fs.block_offset] :=
        List.getElem?_eq_getElem hlt
      simp only [hsome, ih hrest]
      rw [List.filter_cons, if_pos (by simp [hp])]
      rfl

/-- C3 (amended): `read_file_inode` does not return whole-block reads and
does not terminate at the first zero pointer: it returns one string per
*nonzero* direct pointer among all 12 slots (zero pointers are skipped), and
each string is the bytes from the start of that pointer's block up to the
first NUL, read out of the contiguous underlying buffer.  Indirect pointers
are never consulted. -/
theorem read_file_inode_skips_zeros (fs : Ext2) (n : Nat) (root : Inode)
    (hroot : get_inode fs n = .ok root)
    (hfile : root.type_perm &&& FILE = FILE)
    (hval : ∀ p ∈ root.direct_pointer, p ≠ 0 →
      fs.block_offset ≤ p ∧ p - fs.block_offset < fs.blocks.length) :
    read_file_inode fs n = .ok ((root.direct_pointer.filter (fun p => p != 0)).map
      (fun p => readNulStr ((fs.blocks.drop (p - fs.block_offset)).flatten))) := by
  unfold read_file_inode
  simp only [hroot]
  rw [if_pos hfile]
  exact read_file_loop_spec fs root.direct_pointer hval

/-- C3 witness: the amended theorem applied to the witness image's sparse
file inode 5 (direct pointers `[6, 0, 7, 0, ...]`). -/
theorem read_file_inode_skips_zeros_witness :
    read_file_inode fsW 5 = .ok ((fileSW.direct_pointer.filter (fun p => p != 0)).map
      (fun p => readNulStr ((fsW.blocks.drop (p - fsW.block_offset)).flatten))) :=
  read_file_inode_skips_zeros fsW 5 fileSW rfl (by decide) (by decide)

/-- C3 counterexample: on the witness image's file inode 5 (pointers
`[6, 0, 7, 0, ...]`, block 6 = "hello\n" + NUL padding, block 7 =
"world\n" + NUL padding), the code returns the two NUL-terminated strings
"hello\n" and "world\n" — it read past the zero pointer and read nothing of
the blocks' NUL tails — while the claim's description (whole-block
concatenation terminating at the first zero pointer) yields the single
1024-byte block 6.  The outputs disagree even after concatenation. -/
theorem read_file_inode_cex :
    read_file_inode fsW 5 =
      .ok [[104, 101, 108, 108, 111, 10], [119, 111, 114, 108, 100, 10]] ∧
    read_file_claim fsW 5 = .ok (padBlock [104, 101, 108, 108, 111, 10]) ∧
    ([104, 101, 108, 108, 111, 10] ++ [119, 111, 114, 108, 100, 10] : List Nat) ≠
      padBlock [104, 101, 108, 108, 111, 10] :=
  ⟨rfl, rfl, by decide⟩

/-- C5 counterexample: on the witness image's root directory the final
pre-existing record (at payload offset 24, the entry "b") has stored
`name_length` 1, so the claim's `round_up(8 + 1 + 1, 4) = 12`; but the value
the insert writes into its `entry_size` field (payload bytes 28-29) is 10 —
no 4-byte round-up is performed. -/
theorem insert_no_roundup_cex :
    contiguous_data_from_dir_inode fsW 2 = .ok rootDataW ∧
    rootDataW.getD 30 0 = 1 ∧
    le16At (insert_payload 2 [120] rootDataW) 28 = 10 ∧
    round_up4 (8 + 1 + 1) = 12 ∧ (10 : Nat) ≠ 12 :=
  ⟨rfl, by decide, by decide, by decide, by decide⟩

/-- C5 (amended): during `insert_dir_entry` over a well-formed directory
payload, the `entry_size` field of the final pre-existing record (bytes
`oLast cs + 4`, `oLast cs + 5`) is overwritten in place with exactly
`8 + name_length + 1` (little-endian), *without* the 4-byte round-up the
claim describes; nothing else of the existing payload changes, and the new
record is appended after it. -/
theorem insert_rewrites_last_entry_size (fs : Ext2) (d : Nat) (name : List Nat)
    (cs : List (List Nat))
    (hraw : contiguous_raw fs d = .ok cs.flatten)
    (hcs : cs ≠ []) (hwf : ∀ c ∈ cs, chunkWF c) :
    contiguous_data_from_dir_inode fs d = .ok (trimZeros cs.flatten) ∧
    insert_payload d name (trimZeros cs.flatten) =
      ((trimZeros cs.flatten).set (oLast cs + 4) ((lastNL cs + 9) % 256)).set
        (oLast cs + 5) ((lastNL cs + 9) / 256 % 256) ++ new_entry_bytes d name :=
  ⟨contiguous_of_raw hraw, insert_payload_chunks d name cs hwf hcs⟩

/-- C5 witness: the amended theorem applied to the witness image's root
directory, whose payload is the three records of `rootRecs`. -/
theorem insert_rewrites_last_entry_size_witness :
    contiguous_data_from_dir_inode fsW 2 = .ok (trimZeros rootRecs.flatten) ∧
    insert_payload 2 [120] (trimZeros rootRecs.flatten) =
      ((trimZeros rootRecs.flatten).set (oLast rootRecs + 4)
        ((lastNL rootRecs + 9) % 256)).set
        (oLast rootRecs + 5) ((lastNL rootRecs + 9) / 256 % 256) ++
        new_entry_bytes 2 [120] :=
  insert_rewrites_last_entry_size fsW 2 [120] rootRecs rfl (by decide) (by decide)

theorem drop_append_length {α : Type} (l1 l2 : List α) {m : Nat} (h : l1.length = m) :
    (l1 ++ l2).drop m = l2 := by
  rw [← h, List.drop_left]

theorem le32At_le32B (v : Nat) (rest : List Nat) (hv : v < 4294967296) :
    le32At (le32B v ++ rest) 0 = v := by
  unfold le32At le32B
  simp only [List.cons_append, List.nil_append, List.getD_cons_zero, List.getD_cons_succ]
  omega

/-- C1 counterexample: insert "x" into the witness image's root directory
(the only way the code can be called — there is no child-inode argument),
then list the directory again.  The listing's last entry is
`(167772160, "")`: the rewritten size of the old final record makes the
walker land one byte past the appended record, so the last entry is neither
`("x", i)` for any caller-supplied `i` nor `("x", 2)` — its name is not "x"
at all (and the prior entry "b" now reads back as the name `[98, 2]`). -/
theorem insert_visibility_cex :
    (insert_dir_entry fsW 2 [120]).bind (fun fs1 => read_dir_inode fs1 2) =
      .ok [(2, [46]), (2, [46, 46]), (3, [98, 2]), (167772160, [])] ∧
    ([] : List Nat) ≠ [120] ∧ (167772160 : Nat) ≠ 2 :=
  ⟨rfl, by decide, by decide⟩

/-- C1 (amended): a successful `insert_dir_entry fs d name` appends the new
record at the tail of the in-memory payload and writes that payload into the
directory's data blocks: reading the first `payload.length` bytes back from
the direct blocks yields exactly the payload, whose appended tail record is
`new_entry_bytes d name` — its inode field is `d` itself, the directory's
own inode (the function takes no child inode).  A subsequent `list(d)` does
not in general show `(name, d)` last (see the counterexample). -/
theorem insert_appends_self_inode (fs fs' : Ext2) (d : Nat) (name : List Nat)
    (root : Inode) (data : List Nat)
    (hroot : get_inode fs d = .ok root)
    (hdata : contiguous_data_from_dir_inode fs d = .ok data)
    (hins : insert_dir_entry fs d name = .ok fs')
    (hnd : (root.direct_pointer.filter (fun p => p != 0)).Nodup) :
    gather_loop fs' (insert_payload d name data).length root.direct_pointer 0 [] =
      .ok (insert_payload d name data) ∧
    (insert_payload d name data).drop data.length = new_entry_bytes d name ∧
    le32At (new_entry_bytes d name) 0 = d % 4294967296 ∧
    (insert_payload d name data).length = data.length + 9 + name.length := by
  obtain ⟨hdir, blocks', hw, hfs'⟩ := insert_ok_inversion hroot hdata hins
  subst hfs'
  refine ⟨?_, ?_, ?_, ?_⟩
  · have := write_then_gather root.direct_pointer 0 fs.blocks blocks'
      { fs with blocks := blocks' } (insert_payload d name data)
      fs.block_size fs.block_offset hw hnd rfl rfl rfl []
    simpa using this
  · exact drop_append_length _ _ (update_last_length _ _ _ _ _ _)
  · exact le32At_le32B _ _ (Nat.mod_lt _ (by norm_num))
  · show (update_last _ _ _ data 0 0 ++ new_entry_bytes d name).length = _
    rw [List.length_append, update_last_length]
    unfold new_entry_bytes le32B le16B
    simp [List.length_append]
    omega

/-- The witness image after `insert_dir_entry fsW 2 "x"`: only the root
directory's data block (index 1) changed — its first 43 bytes are the new
payload, the rest of the block keeps its old zero padding. -/
def fsW1 : Ext2 :=
  { fsW with blocks := [inodeTableBlock,
      insert_payload 2 [120] rootDataW ++ (padBlock rootRecs.flatten).drop 43,
      padBlock bRecs.flatten, padBlock helloBytes, padBlock worldBytes] }

/-- C1 witness: the amended theorem applied to inserting "x" into the
witness image's root directory. -/
theorem insert_appends_self_inode_witness :
    gather_loop fsW1 (insert_payload 2 [120] rootDataW).length rootW.direct_pointer 0 [] =
      .ok (insert_payload 2 [120] rootDataW) ∧
    (insert_payload 2 [120] rootDataW).drop rootDataW.length = new_entry_bytes 2 [120] ∧
    le32At (new_entry_bytes 2 [120]) 0 = 2 % 4294967296 ∧
    (insert_payload 2 [120] rootDataW).length =
      rootDataW.length + 9 + ([120] : List Nat).length :=
  insert_appends_self_inode fsW fsW1 2 [120] rootW rootDataW rfl rfl rfl (by decide)

/-- The single block-group descriptor of the witness image. -/
def bgW : BlockGroupDescriptor := ⟨1, 2, 3⟩

/-- C10: a successful `insert_dir_entry` leaves the filesystem view intact
except for `blocks`; every block not named by a nonzero direct pointer of
the directory is byte-identical afterwards; in particular (the inode-table
block being none of the data blocks) the directory's inode record — its
type_perm, sizes and all pointers — re-reads unchanged; reading the first
`payload.length` bytes of the direct-block sequence returns exactly the
written payload; and every block is a chunk of the payload followed by the
untouched tail of its old contents. -/
theorem insert_frame (fs fs' : Ext2) (d : Nat) (name : List Nat)
    (root : Inode) (data : List Nat) (bg : BlockGroupDescriptor)
    (hroot : get_inode fs d = .ok root)
    (hdata : contiguous_data_from_dir_inode fs d = .ok data)
    (hins : insert_dir_entry fs d name = .ok fs')
    (hnd : (root.direct_pointer.filter (fun p => p != 0)).Nodup)
    (hd0 : ¬ d = 0) (hipg : ¬ fs.superblock.inodes_per_group = 0)
    (hbg : fs.block_groups[(d - 1) / fs.superblock.inodes_per_group]? = some bg)
    (hole : ¬ bg.inode_table_block < fs.block_offset)
    (hitl : bg.inode_table_block - fs.block_offset < fs.blocks.length)
    (hwin : ((d - 1) % fs.superblock.inodes_per_group) * inodeSize + inodeSize ≤
      (fs.blocks.getD (bg.inode_table_block - fs.block_offset) []).length)
    (hdisj : ∀ p ∈ root.direct_pointer, p = 0 ∨ p < fs.block_offset ∨
      p - fs.block_offset ≠ bg.inode_table_block - fs.block_offset) :
    fs'.superblock = fs.superblock ∧ fs'.block_groups = fs.block_groups ∧
    fs'.block_size = fs.block_size ∧ fs'.block_offset = fs.block_offset ∧
    fs'.blocks.length = fs.blocks.length ∧
    (∀ j, (∀ p ∈ root.direct_pointer, p = 0 ∨ p < fs.block_offset ∨
        p - fs.block_offset ≠ j) →
      fs'.blocks.getD j [] = fs.blocks.getD j []) ∧
    get_inode fs' d = .ok root ∧
    gather_loop fs' (insert_payload d name data).length root.direct_pointer 0 [] =
      .ok (insert_payload d name data) ∧
    (∀ j, ∃ s n, s + n ≤ (insert_payload d name data).length ∧
      fs'.blocks.getD j [] = ((insert_payload d name data).drop s).take n ++
        (fs.blocks.getD j []).drop n) := by
  obtain ⟨hdir, blocks', hw, hfs'⟩ := insert_ok_inversion hroot hdata hins
  subst hfs'
  obtain ⟨hlen, hframe⟩ := write_loop_frame _ _ _ _ _ _ _ _ _ hw
  refine ⟨rfl, rfl, rfl, rfl, hlen, fun j hj => hframe j hj, ?_, ?_, ?_⟩
  · rw [get_inode_stable fs blocks' d bg hd0 hipg hbg hole hitl hlen
      (hframe _ hdisj) hwin]
    exact hroot
  · have := write_then_gather root.direct_pointer 0 fs.blocks blocks'
      { fs with blocks := blocks' } (insert_payload d name data)
      fs.block_size fs.block_offset hw hnd rfl rfl rfl []
    simpa using this
  · exact write_loop_shape _ _ _ _ _ _ _ _ _ hw hnd (Nat.zero_le _)

/-- C10 witness: the frame theorem applied to inserting "x" into the
witness image's root directory. -/
theorem insert_frame_witness :
    fsW1.superblock = fsW.superblock ∧ fsW1.block_groups = fsW.block_groups ∧
    fsW1.block_size = fsW.block_size ∧ fsW1.block_offset = fsW.block_offset ∧
    fsW1.blocks.length = fsW.blocks.length ∧
    (∀ j, (∀ p ∈ rootW.direct_pointer, p = 0 ∨ p < fsW.block_offset ∨
        p - fsW.block_offset ≠ j) →
      fsW1.blocks.getD j [] = fsW.blocks.getD j []) ∧
    get_inode fsW1 2 = .ok rootW ∧
    gather_loop fsW1 (insert_payload 2 [120] rootDataW).length rootW.direct_pointer 0 [] =
      .ok (insert_payload 2 [120] rootDataW) ∧
    (∀ j, ∃ s n, s + n ≤ (insert_payload 2 [120] rootDataW).length ∧
      fsW1.blocks.getD j [] = ((insert_payload 2 [120] rootDataW).drop s).take n ++
        (fsW.blocks.getD j []).drop n) :=
  insert_frame fsW fsW1 2 [120] rootW rootDataW bgW rfl rfl rfl (by decide)
    (by decide) (by decide) rfl (by decide) (by decide)
    (by have h : (fsW.blocks.getD (bgW.inode_table_block - fsW.block_offset) []).length
          = 1024 := rfl
        rw [h]; decide)
    (by decide)

/-- C6: for a directory inode whose gathered payload is a concatenation of
well-formed records satisfying the on-disk invariants (stored entry_size =
record length ≥ 8, name_length ≤ entry_size - 8, sizes summing to the
declared size, itself a multiple of the block size), the reader emits
exactly those records: the emitted entries' `entry_size` values sum to the
declared size (a multiple of the block size) and every emitted entry has
`name_length ≤ entry_size - 8`. -/
theorem list_roundtrip (fs : Ext2) (d : Nat) (root : Inode) (cs : List (List Nat))
    (hroot : get_inode fs d = .ok root)
    (hdir : root.type_perm &&& DIRECTORY = DIRECTORY)
    (hraw : contiguous_raw fs d = .ok cs.flatten)
    (hcs : cs ≠ [])
    (hwf : ∀ c ∈ cs, chunkWF c)
    (hnl : ∀ c ∈ cs, c.getD 6 0 ≤ c.length - 8)
    (hsum : sumLens cs = inode_whole_size root)
    (hmul : inode_whole_size root % fs.block_size = 0) :
    ∃ vs, read_dir_views fs d = .ok vs ∧
      vs.map (fun v => (v.entry_size, v.name_length)) =
        cs.map (fun c => (c.length, c.getD 6 0)) ∧
      (vs.map (fun v => v.entry_size)).sum = inode_whole_size root ∧
      (vs.map (fun v => v.entry_size)).sum % fs.block_size = 0 ∧
      ∀ v ∈ vs, v.name_length ≤ v.entry_size - 8 := by
  have hcd := contiguous_of_raw hraw
  have hv : read_dir_views fs d =
      .ok (walk_views ((trimZeros cs.flatten).length + 1) (trimZeros cs.flatten)) := by
    unfold read_dir_views
    simp only [hcd, hroot]
    rw [if_pos hdir]
  have hfuel : cs.length ≤ (trimZeros cs.flatten).length + 1 := by
    have := length_le_trim_length hcs hwf
    omega
  have hwalk := walk_views_chunks cs ((trimZeros cs.flatten).length + 1) hwf hcs hfuel
  have hes : (walk_views ((trimZeros cs.flatten).length + 1) (trimZeros cs.flatten)).map
      (fun v => v.entry_size) = cs.map (fun c => c.length) := by
    have h2 := congrArg (List.map Prod.fst) hwalk
    simpa [List.map_map, Function.comp] using h2
  have hsum2 : (cs.map (fun c => c.length)).sum = sumLens cs := rfl
  refine ⟨_, hv, hwalk, ?_, ?_, ?_⟩
  · rw [hes, hsum2, hsum]
  · rw [hes, hsum2, hsum]
    exact hmul
  · intro v hv'
    have hmem : (v.entry_size, v.name_length) ∈
        (walk_views ((trimZeros cs.flatten).length + 1) (trimZeros cs.flatten)).map
          (fun v => (v.entry_size, v.name_length)) :=
      List.mem_map_of_mem _ hv'
    rw [hwalk] at hmem
    obtain ⟨c, hc, heq⟩ := List.mem_map.mp hmem
    have h1 : v.entry_size = c.length := (Prod.mk.injEq _ _ _ _ ▸ heq).1.symm
    have h2 : v.name_length = c.getD 6 0 := (Prod.mk.injEq _ _ _ _ ▸ heq).2.symm
    rw [h1, h2]
    exact hnl c hc

/-- C6 witness: the round-trip theorem applied to the witness image's root
directory (records ".", "..", "b" of sizes 12, 12, 1000 over a 1024-byte
block). -/
theorem list_roundtrip_witness :
    ∃ vs, read_dir_views fsW 2 = .ok vs ∧
      vs.map (fun v => (v.entry_size, v.name_length)) =
        rootRecs.map (fun c => (c.length, c.getD 6 0)) ∧
      (vs.map (fun v => v.entry_size)).sum = inode_whole_size rootW ∧
      (vs.map (fun v => v.entry_size)).sum % fsW.block_size = 0 ∧
      ∀ v ∈ vs, v.name_length ≤ v.entry_size - 8 :=
  list_roundtrip fsW 2 rootW rootRecs rfl (by decide) rfl (by decide) (by decide)
    (by decide) (by decide) (by decide)
